import Mathlib

/-!
Verification development for the vintage partitioning and workbook synthesis
engine (`server/excelProcessor.ts`).

The engine's data model is shallowly embedded: a worksheet table is a list of
rows, a row is an association list from column names to scalar cell values,
and the XLSX library boundary (`sheet_to_json` / `json_to_sheet` /
`book_append_sheet`) is embedded as pure functions over these tables and
cell grids.  Workbook binary serialization (`XLSX.write`) is kept abstract
as a function parameter, since only the byte length of its output is ever
inspected by the code under verification.

JavaScript semantics captured by the embedding:
  - cell values are strings or numbers (numbers restricted to integers,
    which covers every value the claims mention);
  - JS truthiness: the empty string, the number 0 and `undefined` are falsy;
  - `a || b` returns `a` when `a` is truthy and `b` otherwise;
  - `String(v)` stringifies a value; `String.prototype.trim` strips
    whitespace from both ends;
  - a JS `Set` preserves insertion order, so it is embedded as a duplicate-free
    list grown at the back;
  - `Array.prototype.sort()` with no comparator sorts strings by UTF-16 code
    units; it is embedded as an insertion sort over the code-point order
    (identical to code-unit order on the characters involved).
-/

/-! ## Strings and JavaScript primitives -/

/-- Whitespace recognised by the embedded `trim` (space, tab, newline,
carriage return — the characters shared by the JS and Lean notions of
whitespace that can occur in spreadsheet cells). -/
def jsIsSpace (c : Char) : Bool :=
  c = ' ' || c = '\t' || c = '\n' || c = '\r'

/-- Drop leading whitespace from a character list. -/
def dropSpaces : List Char → List Char
  | [] => []
  | c :: t => if jsIsSpace c then dropSpaces t else c :: t

/-- Trim whitespace from both ends of a character list. -/
def trimChars (l : List Char) : List Char :=
  ((dropSpaces ((dropSpaces l).reverse)).reverse)

/-- Embedding of `String.prototype.trim`. -/
def jsTrim (s : String) : String :=
  ⟨trimChars s.data⟩

/-- Strict lexicographic (code-point) order on character lists. -/
def strLtb : List Char → List Char → Bool
  | [], [] => false
  | [], _ :: _ => true
  | _ :: _, [] => false
  | a :: s, b :: t => if a = b then strLtb s t else decide (a.val.toNat < b.val.toNat)

/-- Reflexive lexicographic (code-point) order on character lists. -/
def strLeb : List Char → List Char → Bool
  | [], _ => true
  | _ :: _, [] => false
  | a :: s, b :: t => if a = b then strLeb s t else decide (a.val.toNat < b.val.toNat)

/-- Scalar cell value of a worksheet row field: a string or a number.
Numbers are embedded as integers, which covers every numeric value the
engine's control flow distinguishes (in particular the falsy `0`). -/
inductive CellValue where
  | str (s : String)
  | num (n : Int)
deriving DecidableEq, Repr

/-- JavaScript truthiness of a cell value: `""` and `0` are falsy. -/
def CellValue.truthy : CellValue → Bool
  | .str s => s != ""
  | .num n => n != 0

/-- Embedding of `String(v)` applied to a cell value. -/
def CellValue.jsStr : CellValue → String
  | .str s => s
  | .num n => toString n

/-- A worksheet row as produced by `XLSX.utils.sheet_to_json`: an ordered
mapping from column names to cell values. -/
abbrev Row : Type := List (String × CellValue)

/-- Field access `row[key]`: the value under the first matching key, or
`none` for a JS `undefined`. -/
def Row.get? : Row → String → Option CellValue
  | [], _ => none
  | (k, v) :: t, key => if k = key then some v else Row.get? t key

/-- JavaScript truthiness of a possibly-absent value (`undefined` is falsy). -/
def truthyO : Option CellValue → Bool
  | some c => c.truthy
  | none => false

/-- Embedding of `row["Vintage"] || row["vintage"]` — the JS `||` returns its
first operand when truthy and its second operand otherwise. -/
def vintageLookup (row : Row) : Option CellValue :=
  if truthyO (row.get? "Vintage") then row.get? "Vintage" else row.get? "vintage"

/-- The vintage value the engine sees for a row: when the looked-up cell is
truthy, its stringification trimmed (`String(vintage).trim()`); otherwise
nothing.  `extractVintages` collects exactly these values and
`filterRowsByVintage` matches on them. -/
def rowVintage (row : Row) : Option String :=
  match vintageLookup row with
  | some c => if c.truthy then some (jsTrim c.jsStr) else none
  | none => none

/-- Embedding of `Set.prototype.add`: insertion-ordered, duplicate-free. -/
def setAdd (l : List String) (s : String) : List String :=
  if s ∈ l then l else l ++ [s]

/-- Embedding of `ExcelProcessor.extractVintages`: scan every row, and for
each row whose vintage lookup is truthy add the trimmed stringification to
the set.  Returns the set in insertion order. -/
def extractVintages (rows : List Row) : List String :=
  rows.foldl
    (fun acc row =>
      match rowVintage row with
      | some v => setAdd acc v
      | none => acc)
    []

/-- Embedding of `ExcelProcessor.filterRowsByVintage`: keep the rows whose
truthy, trimmed vintage value equals `vintageName` exactly. -/
def filterRowsByVintage (rows : List Row) (vintageName : String) : List Row :=
  rows.filter (fun row => rowVintage row == some vintageName)

/-- The symbol value the engine sees for a row of the realized table: the
trimmed stringification of `row["Symbol"]` when that cell is truthy
(`if (row["Symbol"]) { symbols.add(String(row["Symbol"]).trim()) }`). -/
def symbolValue (row : Row) : Option String :=
  match row.get? "Symbol" with
  | some c => if c.truthy then some (jsTrim c.jsStr) else none
  | none => none

/-- Insert into a list sorted by the comparator `leb`. -/
def insertSortedBy {α : Type} (leb : α → α → Bool) (a : α) : List α → List α
  | [] => [a]
  | b :: t => if leb a b then a :: b :: t else b :: insertSortedBy leb a t

/-- Insertion sort by the comparator `leb`; embeds `Array.prototype.sort`
(the arrays sorted by the engine have pairwise-distinct sort keys, so every
correct sort produces this same output). -/
def sortBy {α : Type} (leb : α → α → Bool) (l : List α) : List α :=
  l.foldr (insertSortedBy leb) []

/-- String comparison used by `Array.from(symbols).sort()` — the default
JS sort compares strings by UTF-16 code units. -/
def strLe (a b : String) : Bool := strLeb a.data b.data

/-- Embedding of `ExcelProcessor.getUniqueSymbols`: the set of truthy,
trimmed symbol values in insertion order, then sorted ascending. -/
def getUniqueSymbols (realizedRows : List Row) : List String :=
  sortBy strLe
    (realizedRows.foldl
      (fun acc row =>
        match symbolValue row with
        | some s => setAdd acc s
        | none => acc)
      [])

/-! ## Initial Purchase formulas and sheets -/

/-- The first-purchase-date formula string the code builds for a symbol
(`MINIFS` over the Realized sheet, guarded by `IFERROR`). -/
def firstPurchaseDateFormula (symbol : String) : String :=
  "IFERROR(MINIFS(Realized!B:B,Realized!A:A,\"" ++ symbol ++ "\",Realized!C:C,\"BUY\"),\"\")"

/-- The initial-amount formula string the code builds for a symbol at
1-based sheet row `rowNum` (`SUMIFS` over the Realized sheet, the date
condition referencing cell `B{rowNum}` of the Initial Purchase sheet). -/
def initialAmountFormula (symbol : String) (rowNum : Nat) : String :=
  "IFERROR(SUMIFS(Realized!F:F,Realized!A:A,\"" ++ symbol ++ "\",Realized!B:B,B" ++ toString rowNum ++ ",Realized!C:C,\"BUY\"),0)"

/-- A cell of a generated worksheet: a plain value, a formula cell (the
`{ f: ... }` cell objects the code writes), or a blank. -/
inductive SCell where
  | val (c : CellValue)
  | fml (s : String)
  | blank
deriving DecidableEq, Repr

/-- A generated worksheet as a row-major cell grid. -/
abbrev Grid : Type := List (List SCell)

/-- Header names of `XLSX.utils.json_to_sheet`: the union of the rows' keys
in order of first appearance. -/
def sheetHeaders (rows : List Row) : List String :=
  rows.foldl (fun acc row => row.foldl (fun acc2 kv => setAdd acc2 kv.1) acc) []

/-- Embedding of `XLSX.utils.json_to_sheet`: an empty row list produces an
empty sheet (no header row); otherwise a header row of the collected keys
followed by one cell row per input row (missing fields become blanks). -/
def jsonToSheet (rows : List Row) : Grid :=
  match rows with
  | [] => []
  | _ :: _ =>
    let hs := sheetHeaders rows
    (hs.map (fun h => SCell.val (.str h))) ::
      rows.map (fun row =>
        hs.map (fun k =>
          match row.get? k with
          | some c => SCell.val c
          | none => SCell.blank))

/-- Replace the element at an index (no-op when out of range). -/
def updateNth {α : Type} : List α → Nat → (α → α) → List α
  | [], _, _ => []
  | a :: t, 0, f => f a :: t
  | a :: t, n + 1, f => a :: updateNth t n f

/-- Embedding of a cell assignment `ws[encode_cell({r, c})] = x` on the grid
(always in range at the code's call sites). -/
def setCell (g : Grid) (r c : Nat) (x : SCell) : Grid :=
  updateNth g r (fun row => updateNth row c (fun _ => x))

/-- Read the cell at 0-based row `r`, column `c` of a grid. -/
def getCell (g : Grid) (r c : Nat) : Option SCell :=
  (g.get? r).bind (fun row => row.get? c)

/-- The row object pushed into `initialPurchaseData` for the symbol at
0-based index `i`: the symbol plus the two `=`-prefixed formula strings
(these two are later overwritten by formula cells). -/
def ipDataRow (is : Nat × String) : Row :=
  [("Symbol", CellValue.str is.2),
   ("First Purchase Date", CellValue.str ("=" ++ firstPurchaseDateFormula is.2)),
   ("Initial Amount", CellValue.str ("=" ++ initialAmountFormula is.2 (is.1 + 2)))]

/-- The overwrite step of the `for (let i = 0; ...)` loop: formula cells for
the date (column B) and amount (column C) of sheet row `i + 2`. -/
def ipStep (ws : Grid) (is : Nat × String) : Grid :=
  setCell
    (setCell ws (is.1 + 1) 1 (SCell.fml (firstPurchaseDateFormula is.2)))
    (is.1 + 1) 2 (SCell.fml (initialAmountFormula is.2 (is.1 + 2)))

/-- Embedding of `ExcelProcessor.createInitialPurchaseSheet`: build the data
rows for the unique symbols, convert them to a sheet, then overwrite
columns B and C of each data row with formula cells. -/
def createInitialPurchaseSheet (realizedRows : List Row) : Grid :=
  let uniqueSymbols := getUniqueSymbols realizedRows
  let ws := jsonToSheet (uniqueSymbols.enum.map ipDataRow)
  uniqueSymbols.enum.foldl ipStep ws

/-! ## Partitioning -/

/-- A per-vintage partition (`VintageData` in the code). -/
structure VintageData where
  vintageName : String
  realizedRows : List Row
  unrealizedRows : List Row
deriving DecidableEq, Repr

/-- Which of the two inputs an error refers to. -/
inductive InputSide where
  | realized
  | unrealized
deriving DecidableEq, Repr

/-- Errors raised by `processFiles` (thrown `Error`s in the code, classified
by the spec's taxonomy as `MissingVintageColumnError`). -/
inductive ProcessError where
  | missingVintageColumn (side : InputSide)
deriving DecidableEq, Repr

/-- Embedding of `new Set([...realizedVintages, ...unrealizedVintages])`:
the insertion-ordered union of the two vintage lists. -/
def combineVintages (rv uv : List String) : List String :=
  (rv ++ uv).foldl setAdd []

/-- Strict lexicographic order on weight sequences, used as the level-wise
comparison of collation sort keys. -/
def lexLt : List Nat → List Nat → Bool
  | [], [] => false
  | [], _ :: _ => true
  | _ :: _, [] => false
  | a :: s, b :: t => if a = b then lexLt s t else decide (a < b)

/-- Primary collation weight of a character: ASCII letters are folded to
lowercase (so the primary level is case-insensitive, with digits ordered
before letters as in the ICU root collation); other characters keep their
code point. -/
def foldCase (c : Char) : Nat :=
  if 65 ≤ c.val.toNat ∧ c.val.toNat ≤ 90 then c.val.toNat + 32 else c.val.toNat

/-- Tertiary (case) collation weight of a character: lowercase sorts before
anything else, as in the ICU root collation, where `'a'` precedes `'A'`. -/
def caseWeight (c : Char) : Nat :=
  if 97 ≤ c.val.toNat ∧ c.val.toNat ≤ 122 then 0 else 1

/-- Strict order of `String.prototype.localeCompare` with the default
locale, embedded as a two-level Unicode-collation comparison: the whole
primary (case-folded) weight sequences are compared first, and only when
they are equal does the tertiary (case) weight sequence decide — so
`"a" < "B"` (primary `a < b`) and `"a" < "A"` (tertiary lowercase first),
unlike code-unit order.  This is the ICU root-collation behavior on ASCII
alphanumeric labels, the domain of vintage names; for punctuation and
non-ASCII text — which ICU weights differently — the embedding
approximates by code point. -/
def collationKeyLt (a b : List Char) : Bool :=
  if a.map foldCase = b.map foldCase
  then lexLt (a.map caseWeight) (b.map caseWeight)
  else lexLt (a.map foldCase) (b.map foldCase)

/-- Reflexive companion of `collationKeyLt` (the comparator order is
total, so `a ≤ b` is the complement of `b < a`). -/
def localeLeb (a b : List Char) : Bool := !(collationKeyLt b a)

/-- The comparator of `vintageDataArray.sort((a, b) =>
a.vintageName.localeCompare(b.vintageName))`: the default-locale collation
order on the vintage names, embedded by `collationKeyLt`. -/
def vintageLe (a b : VintageData) : Bool :=
  localeLeb a.vintageName.data b.vintageName.data

/-- The partition built for one vintage of the union (the body of the
`for (const vintageName of Array.from(allVintages))` loop). -/
def mkPartition (realizedTable unrealizedTable : List Row) (vintageName : String) :
    VintageData :=
  { vintageName := vintageName
    realizedRows := filterRowsByVintage realizedTable vintageName
    unrealizedRows := filterRowsByVintage unrealizedTable vintageName }

/-- Embedding of `ExcelProcessor.processFiles` from the two extracted
tables onward: extract the vintage sets, validate both are non-empty, build
one partition per vintage of the union and sort by vintage name.  (The
upstream buffer-parsing boundary `XLSX.read`/first-sheet selection is
outside the embedding; a workbook's first sheet is presented as its row
table.) -/
def processFiles (realizedTable unrealizedTable : List Row) :
    Except ProcessError (List VintageData) :=
  let realizedVintages := extractVintages realizedTable
  let unrealizedVintages := extractVintages unrealizedTable
  if realizedVintages.length = 0 then
    .error (.missingVintageColumn .realized)
  else if unrealizedVintages.length = 0 then
    .error (.missingVintageColumn .unrealized)
  else
    let allVintages := combineVintages realizedVintages unrealizedVintages
    let vintageDataArray :=
      allVintages.map (mkPartition realizedTable unrealizedTable)
    .ok (sortBy vintageLe vintageDataArray)

/-! ## Workbook synthesis and orchestration -/

/-- A generated workbook: named sheets in append order. -/
abbrev Workbook : Type := List (String × Grid)

/-- Embedding of `ExcelProcessor.generateVintageExcel`: exactly three sheets
appended in fixed order. -/
def generateVintageExcel (vintageData : VintageData) : Workbook :=
  [("Realized", jsonToSheet vintageData.realizedRows),
   ("Unrealized", jsonToSheet vintageData.unrealizedRows),
   ("Initial Purchase", createInitialPurchaseSheet vintageData.realizedRows)]

/-- Per-vintage summary metadata (`vintageResultSchema` of the shared
schema). -/
structure VintageResult where
  vintageName : String
  filename : String
  realizedRowCount : Nat
  unrealizedRowCount : Nat
  fileSize : Nat
deriving DecidableEq, Repr

/-- Embedding of `ExcelProcessor.processAndGenerateFiles`.  The binary
serialization `XLSX.write` is abstract (parameter `writeWorkbook`); the code
only reads the byte length of its output. -/
def processAndGenerateFiles (writeWorkbook : Workbook → List UInt8)
    (realizedTable unrealizedTable : List Row) :
    Except ProcessError (List VintageData × List VintageResult) :=
  match processFiles realizedTable unrealizedTable with
  | .error e => .error e
  | .ok vintageDataArray =>
    .ok (vintageDataArray,
      vintageDataArray.map (fun vd =>
        { vintageName := vd.vintageName
          filename := vd.vintageName ++ "_Portfolio.xlsx"
          realizedRowCount := vd.realizedRows.length
          unrealizedRowCount := vd.unrealizedRows.length
          fileSize := (writeWorkbook (generateVintageExcel vd)).length : VintageResult }))

/-! ## Order lemmas for the embedded string comparisons -/

theorem char_toNat_inj {a b : Char} (h : a.val.toNat = b.val.toNat) : a = b :=
  Char.ext (UInt32.ext h)

theorem strLeb_total (s t : List Char) : strLeb s t || strLeb t s = true := by
  induction s generalizing t with
  | nil => simp [strLeb]
  | cons a s ih =>
    cases t with
    | nil => simp [strLeb]
    | cons b t =>
      by_cases hab : a = b
      · subst hab
        simpa [strLeb] using ih t
      · have hv : a.val.toNat ≠ b.val.toNat := fun h => hab (char_toNat_inj h)
        rcases Nat.lt_trichotomy a.val.toNat b.val.toNat with h | h | h
        · simp [strLeb, hab, h]
        · exact absurd h hv
        · simp [strLeb, hab, Ne.symm hab, h, Nat.not_lt_of_gt h]

theorem strLeb_trans {s t u : List Char} (h1 : strLeb s t = true)
    (h2 : strLeb t u = true) : strLeb s u = true := by
  induction s generalizing t u with
  | nil => simp [strLeb]
  | cons a s ih =>
    cases t with
    | nil => simp [strLeb] at h1
    | cons b t =>
      cases u with
      | nil => simp [strLeb] at h2
      | cons c u =>
        by_cases hab : a = b <;> by_cases hbc : b = c
        · subst hab; subst hbc
          simp only [strLeb, if_pos rfl] at h1 h2 ⊢
          exact ih h1 h2
        · subst hab
          simpa [strLeb, hbc] using h2
        · subst hbc
          simpa [strLeb, hab] using h1
        · simp only [strLeb, if_neg hab] at h1
          simp only [strLeb, if_neg hbc] at h2
          have h1' : a.val.toNat < b.val.toNat := by simpa using h1
          have h2' : b.val.toNat < c.val.toNat := by simpa using h2
          have hac : a ≠ c := by
            intro h
            subst h
            exact absurd h2' (Nat.lt_asymm h1')
          simp [strLeb, hac, Nat.lt_trans h1' h2']

theorem strLtb_iff (s t : List Char) :
    strLtb s t = true ↔ strLeb s t = true ∧ s ≠ t := by
  induction s generalizing t with
  | nil =>
    cases t with
    | nil => simp [strLtb, strLeb]
    | cons b t => simp [strLtb, strLeb]
  | cons a s ih =>
    cases t with
    | nil => simp [strLtb, strLeb]
    | cons b t =>
      by_cases hab : a = b
      · subst hab
        have e1 : strLtb (a :: s) (a :: t) = strLtb s t := by simp [strLtb]
        have e2 : strLeb (a :: s) (a :: t) = strLeb s t := by simp [strLeb]
        rw [e1, e2, ih t]
        constructor
        · rintro ⟨h1, h2⟩
          exact ⟨h1, by simpa using h2⟩
        · rintro ⟨h1, h2⟩
          exact ⟨h1, by simpa using h2⟩
      · simp [strLtb, strLeb, hab]

/-! ## Order lemmas for the embedded collation -/

theorem lexLt_irrefl (l : List Nat) : lexLt l l = false := by
  induction l with
  | nil => rfl
  | cons a t ih => simp [lexLt, ih]

theorem lexLt_asymm {a b : List Nat} (h : lexLt a b = true) : lexLt b a = false := by
  induction a generalizing b with
  | nil =>
    cases b with
    | nil => simp [lexLt] at h
    | cons y t => rfl
  | cons x s ih =>
    cases b with
    | nil => simp [lexLt] at h
    | cons y t =>
      by_cases hxy : x = y
      · subst hxy
        simp only [lexLt, if_pos rfl] at h ⊢
        exact ih h
      · simp only [lexLt, if_neg hxy] at h
        have hx : x < y := by simpa using h
        simp [lexLt, Ne.symm hxy, Nat.lt_asymm hx]

theorem lexLt_trans {a b c : List Nat} (h1 : lexLt a b = true)
    (h2 : lexLt b c = true) : lexLt a c = true := by
  induction a generalizing b c with
  | nil =>
    cases c with
    | nil =>
      cases b with
      | nil => exact h1
      | cons y t => simp [lexLt] at h2
    | cons z u => simp [lexLt]
  | cons x s ih =>
    cases b with
    | nil => simp [lexLt] at h1
    | cons y t =>
      cases c with
      | nil => simp [lexLt] at h2
      | cons z u =>
        by_cases hxy : x = y <;> by_cases hyz : y = z
        · subst hxy; subst hyz
          simp only [lexLt, if_pos rfl] at h1 h2 ⊢
          exact ih h1 h2
        · subst hxy
          simpa [lexLt, hyz] using h2
        · subst hyz
          simpa [lexLt, hxy] using h1
        · simp only [lexLt, if_neg hxy] at h1
          simp only [lexLt, if_neg hyz] at h2
          have h1' : x < y := by simpa using h1
          have h2' : y < z := by simpa using h2
          have hxz : x ≠ z := by omega
          simp [lexLt, hxz, Nat.lt_trans h1' h2']

theorem lexLt_connex {a b : List Nat} (h1 : lexLt a b = false)
    (h2 : lexLt b a = false) : a = b := by
  induction a generalizing b with
  | nil =>
    cases b with
    | nil => rfl
    | cons y t => simp [lexLt] at h1
  | cons x s ih =>
    cases b with
    | nil => simp [lexLt] at h2
    | cons y t =>
      by_cases hxy : x = y
      · subst hxy
        simp only [lexLt, if_pos rfl] at h1 h2
        rw [ih h1 h2]
      · simp only [lexLt, if_neg hxy] at h1
        simp only [lexLt, if_neg (Ne.symm hxy)] at h2
        have hx : ¬ x < y := by simpa using h1
        have hy : ¬ y < x := by simpa using h2
        exact absurd (by omega) hxy

theorem collationKeyLt_irrefl (a : List Char) : collationKeyLt a a = false := by
  simp [collationKeyLt, lexLt_irrefl]

theorem collationKeyLt_asymm {a b : List Char} (h : collationKeyLt a b = true) :
    collationKeyLt b a = false := by
  unfold collationKeyLt at h ⊢
  by_cases hp : a.map foldCase = b.map foldCase
  · rw [if_pos hp] at h
    rw [if_pos hp.symm]
    exact lexLt_asymm h
  · rw [if_neg hp] at h
    rw [if_neg (fun he => hp he.symm)]
    exact lexLt_asymm h

theorem collationKeyLt_trans {a b c : List Char} (h1 : collationKeyLt a b = true)
    (h2 : collationKeyLt b c = true) : collationKeyLt a c = true := by
  unfold collationKeyLt at h1 h2 ⊢
  by_cases hab : a.map foldCase = b.map foldCase <;>
    by_cases hbc : b.map foldCase = c.map foldCase
  · rw [if_pos hab] at h1
    rw [if_pos hbc] at h2
    rw [if_pos (hab.trans hbc)]
    exact lexLt_trans h1 h2
  · rw [if_neg hbc] at h2
    have hac : a.map foldCase ≠ c.map foldCase := by
      rw [hab]
      exact hbc
    rw [if_neg hac, hab]
    exact h2
  · rw [if_neg hab] at h1
    have hac : a.map foldCase ≠ c.map foldCase := fun he => hab (he.trans hbc.symm)
    rw [if_neg hac, ← hbc]
    exact h1
  · rw [if_neg hab] at h1
    rw [if_neg hbc] at h2
    have hac : a.map foldCase ≠ c.map foldCase := by
      intro he
      rw [he] at h1
      rw [lexLt_asymm h2] at h1
      cases h1
    rw [if_neg hac]
    exact lexLt_trans h1 h2

theorem char_eq_of_weights {c d : Char} (h1 : foldCase c = foldCase d)
    (h2 : caseWeight c = caseWeight d) : c = d := by
  unfold foldCase at h1
  unfold caseWeight at h2
  apply char_toNat_inj
  split_ifs at h1 h2 <;> omega

theorem eq_of_weight_maps_eq : ∀ {a b : List Char},
    a.map foldCase = b.map foldCase → a.map caseWeight = b.map caseWeight → a = b := by
  intro a
  induction a with
  | nil =>
    intro b h1 _
    cases b with
    | nil => rfl
    | cons y t => simp at h1
  | cons x s ih =>
    intro b h1 h2
    cases b with
    | nil => simp at h1
    | cons y t =>
      simp only [List.map_cons, List.cons.injEq] at h1 h2
      rw [char_eq_of_weights h1.1 h2.1, ih h1.2 h2.2]

theorem collationKeyLt_connex {a b : List Char} (h1 : collationKeyLt a b = false)
    (h2 : collationKeyLt b a = false) : a = b := by
  unfold collationKeyLt at h1 h2
  by_cases hp : a.map foldCase = b.map foldCase
  · rw [if_pos hp] at h1
    rw [if_pos hp.symm] at h2
    exact eq_of_weight_maps_eq hp (lexLt_connex h1 h2)
  · rw [if_neg hp] at h1
    rw [if_neg (fun he => hp he.symm)] at h2
    exact absurd (lexLt_connex h1 h2) hp

theorem localeLeb_total (a b : List Char) : localeLeb a b || localeLeb b a = true := by
  unfold localeLeb
  cases hlt : collationKeyLt b a with
  | false => simp
  | true => simp [collationKeyLt_asymm hlt]

theorem localeLeb_trans {a b c : List Char} (h1 : localeLeb a b = true)
    (h2 : localeLeb b c = true) : localeLeb a c = true := by
  have hba : collationKeyLt b a = false := by simpa [localeLeb] using h1
  have hcb : collationKeyLt c b = false := by simpa [localeLeb] using h2
  unfold localeLeb
  cases hca : collationKeyLt c a with
  | false => rfl
  | true =>
    exfalso
    cases hbc : collationKeyLt b c with
    | true =>
      rw [collationKeyLt_trans hbc hca] at hba
      cases hba
    | false =>
      rw [collationKeyLt_connex hbc hcb] at hba
      rw [hca] at hba
      cases hba

/-- The strict collation order is the reflexive one plus inequality,
lifted to `String`. -/
theorem collationLt_iff (a b : String) :
    collationKeyLt a.data b.data = true ↔ localeLeb a.data b.data = true ∧ a ≠ b := by
  constructor
  · intro h
    refine ⟨by simp [localeLeb, collationKeyLt_asymm h], fun he => ?_⟩
    rw [he, collationKeyLt_irrefl] at h
    cases h
  · rintro ⟨h1, h2⟩
    have hba : collationKeyLt b.data a.data = false := by
      simpa [localeLeb] using h1
    cases hab : collationKeyLt a.data b.data with
    | true => rfl
    | false =>
      exact absurd (congrArg String.mk (collationKeyLt_connex hab hba)) h2

/-! ## Insertion sort lemmas -/

theorem perm_insertSortedBy {α : Type} (leb : α → α → Bool) (a : α) (l : List α) :
    List.Perm (insertSortedBy leb a l) (a :: l) := by
  induction l with
  | nil => exact List.Perm.refl _
  | cons b t ih =>
    by_cases h : leb a b
    · simp [insertSortedBy, h]
    · simp only [insertSortedBy, if_neg h]
      exact ((ih.cons b).trans (List.Perm.swap a b t))

theorem perm_sortBy {α : Type} (leb : α → α → Bool) (l : List α) :
    List.Perm (sortBy leb l) l := by
  induction l with
  | nil => exact List.Perm.refl _
  | cons a t ih =>
    have : sortBy leb (a :: t) = insertSortedBy leb a (sortBy leb t) := rfl
    rw [this]
    exact (perm_insertSortedBy leb a (sortBy leb t)).trans (ih.cons a)

theorem pairwise_insertSortedBy {α : Type} (leb : α → α → Bool)
    (htot : ∀ a b, leb a b || leb b a = true)
    (htrans : ∀ {a b c}, leb a b = true → leb b c = true → leb a c = true)
    (a : α) {l : List α} (hl : List.Pairwise (fun x y => leb x y = true) l) :
    List.Pairwise (fun x y => leb x y = true) (insertSortedBy leb a l) := by
  induction l with
  | nil => simp [insertSortedBy]
  | cons b t ih =>
    rcases List.pairwise_cons.mp hl with ⟨hb, ht⟩
    by_cases h : leb a b
    · simp only [insertSortedBy, if_pos h]
      refine List.pairwise_cons.mpr ⟨?_, hl⟩
      intro x hx
      rcases List.mem_cons.mp hx with rfl | hx
      · exact h
      · exact htrans h (hb x hx)
    · simp only [insertSortedBy, if_neg h]
      refine List.pairwise_cons.mpr ⟨?_, ih ht⟩
      intro x hx
      have hba : leb b a = true := by
        have := htot a b
        simp [h] at this
        exact this
      have hx' := (perm_insertSortedBy leb a t).mem_iff.mp hx
      rcases List.mem_cons.mp hx' with rfl | hx'
      · exact hba
      · exact hb x hx'

theorem pairwise_sortBy {α : Type} (leb : α → α → Bool)
    (htot : ∀ a b, leb a b || leb b a = true)
    (htrans : ∀ {a b c}, leb a b = true → leb b c = true → leb a c = true)
    (l : List α) :
    List.Pairwise (fun x y => leb x y = true) (sortBy leb l) := by
  induction l with
  | nil => simp [sortBy]
  | cons a t ih =>
    exact pairwise_insertSortedBy leb htot htrans a ih

/-! ## Set-accumulation lemmas -/

theorem mem_setAdd {l : List String} {s v : String} :
    v ∈ setAdd l s ↔ v ∈ l ∨ v = s := by
  by_cases h : s ∈ l
  · simp only [setAdd, if_pos h]
    constructor
    · exact Or.inl
    · rintro (hv | rfl)
      · exact hv
      · exact h
  · simp [setAdd, if_neg h]

theorem nodup_setAdd {l : List String} (h : l.Nodup) (s : String) :
    (setAdd l s).Nodup := by
  by_cases hs : s ∈ l
  · simpa [setAdd, if_pos hs] using h
  · simp only [setAdd, if_neg hs]
    exact List.Nodup.append h (List.nodup_singleton s) (by simpa using hs)

theorem setAdd_of_mem {l : List String} {s : String} (h : s ∈ l) :
    setAdd l s = l := by
  simp [setAdd, if_pos h]

theorem mem_foldl_optAdd {γ : Type} (g : γ → Option String) (l : List γ)
    (init : List String) (v : String) :
    (v ∈ l.foldl (fun acc x =>
        match g x with
        | some s => setAdd acc s
        | none => acc) init) ↔ v ∈ init ∨ ∃ x ∈ l, g x = some v := by
  induction l generalizing init with
  | nil => simp
  | cons a t ih =>
    simp only [List.foldl_cons]
    rw [ih]
    cases hga : g a with
    | none =>
      simp only [hga]
      constructor
      · rintro (h | h)
        · exact Or.inl h
        · exact Or.inr ⟨h.choose, List.mem_cons_of_mem a h.choose_spec.1, h.choose_spec.2⟩
      · rintro (h | ⟨x, hx, hgx⟩)
        · exact Or.inl h
        · rcases List.mem_cons.mp hx with rfl | hx
          · rw [hga] at hgx; exact absurd hgx (by simp)
          · exact Or.inr ⟨x, hx, hgx⟩
    | some s =>
      simp only [hga]
      rw [show ((v ∈ setAdd init s) ↔ v ∈ init ∨ v = s) from mem_setAdd]
      constructor
      · rintro ((h | rfl) | h)
        · exact Or.inl h
        · exact Or.inr ⟨a, List.mem_cons_self a t, hga⟩
        · exact Or.inr ⟨h.choose, List.mem_cons_of_mem a h.choose_spec.1, h.choose_spec.2⟩
      · rintro (h | ⟨x, hx, hgx⟩)
        · exact Or.inl (Or.inl h)
        · rcases List.mem_cons.mp hx with rfl | hx
          · rw [hga] at hgx
            exact Or.inl (Or.inr (Option.some_inj.mp hgx).symm)
          · exact Or.inr ⟨x, hx, hgx⟩

theorem nodup_foldl_optAdd {γ : Type} (g : γ → Option String) (l : List γ)
    {init : List String} (h : init.Nodup) :
    (l.foldl (fun acc x =>
        match g x with
        | some s => setAdd acc s
        | none => acc) init).Nodup := by
  induction l generalizing init with
  | nil => exact h
  | cons a t ih =>
    simp only [List.foldl_cons]
    cases hga : g a with
    | none => simpa [hga] using ih h
    | some s =>
      simp only [hga]
      exact ih (nodup_setAdd h s)

theorem mem_foldl_setAdd (l : List String) (init : List String) (v : String) :
    v ∈ l.foldl setAdd init ↔ v ∈ init ∨ v ∈ l := by
  induction l generalizing init with
  | nil => simp
  | cons a t ih =>
    simp only [List.foldl_cons]
    rw [ih]
    rw [show ((v ∈ setAdd init a) ↔ v ∈ init ∨ v = a) from mem_setAdd]
    constructor
    · rintro ((h | rfl) | h)
      · exact Or.inl h
      · exact Or.inr (List.mem_cons_self _ _)
      · exact Or.inr (List.mem_cons_of_mem a h)
    · rintro (h | h)
      · exact Or.inl (Or.inl h)
      · rcases List.mem_cons.mp h with rfl | h
        · exact Or.inl (Or.inr rfl)
        · exact Or.inr h

theorem nodup_foldl_setAdd (l : List String) {init : List String}
    (h : init.Nodup) : (l.foldl setAdd init).Nodup := by
  induction l generalizing init with
  | nil => exact h
  | cons a t ih =>
    simp only [List.foldl_cons]
    exact ih (nodup_setAdd h a)

/-! ## Extraction and filtering lemmas -/

theorem mem_extractVintages {rows : List Row} {v : String} :
    v ∈ extractVintages rows ↔ ∃ row ∈ rows, rowVintage row = some v := by
  have := mem_foldl_optAdd rowVintage rows [] v
  simpa [extractVintages] using this

theorem nodup_extractVintages (rows : List Row) : (extractVintages rows).Nodup := by
  have := @nodup_foldl_optAdd _ rowVintage rows [] List.nodup_nil
  simpa [extractVintages] using this

theorem extractVintages_eq_nil_iff {rows : List Row} :
    extractVintages rows = [] ↔ ∀ row ∈ rows, rowVintage row = none := by
  rw [List.eq_nil_iff_forall_not_mem]
  constructor
  · intro h row hrow
    cases hv : rowVintage row with
    | none => rfl
    | some v =>
      exact absurd (mem_extractVintages.mpr ⟨row, hrow, hv⟩) (h v)
  · intro h v hv
    rcases mem_extractVintages.mp hv with ⟨row, hrow, hrv⟩
    rw [h row hrow] at hrv
    cases hrv

theorem mem_filterRowsByVintage {rows : List Row} {v : String} {row : Row} :
    row ∈ filterRowsByVintage rows v ↔ row ∈ rows ∧ rowVintage row = some v := by
  simp [filterRowsByVintage, List.mem_filter]

theorem filterRowsByVintage_eq_nil {rows : List Row} {v : String}
    (h : v ∉ extractVintages rows) : filterRowsByVintage rows v = [] := by
  rw [List.eq_nil_iff_forall_not_mem]
  intro row hrow
  rcases mem_filterRowsByVintage.mp hrow with ⟨hmem, hrv⟩
  exact h (mem_extractVintages.mpr ⟨row, hmem, hrv⟩)

theorem mem_combineVintages {rv uv : List String} {v : String} :
    v ∈ combineVintages rv uv ↔ v ∈ rv ∨ v ∈ uv := by
  unfold combineVintages
  rw [mem_foldl_setAdd]
  simp

theorem nodup_combineVintages (rv uv : List String) : (combineVintages rv uv).Nodup :=
  nodup_foldl_setAdd _ List.nodup_nil

theorem mem_getUniqueSymbols {rows : List Row} {s : String} :
    s ∈ getUniqueSymbols rows ↔ ∃ row ∈ rows, symbolValue row = some s := by
  unfold getUniqueSymbols
  rw [(perm_sortBy strLe _).mem_iff]
  have := mem_foldl_optAdd symbolValue rows [] s
  simpa using this

theorem nodup_getUniqueSymbols (rows : List Row) : (getUniqueSymbols rows).Nodup := by
  unfold getUniqueSymbols
  rw [(perm_sortBy strLe _).nodup_iff]
  exact nodup_foldl_optAdd symbolValue rows List.nodup_nil

/-- Totality of the embedded string order, lifted to `String`. -/
theorem strLe_total (a b : String) : strLe a b || strLe b a = true :=
  strLeb_total a.data b.data

/-- Transitivity of the embedded string order, lifted to `String`. -/
theorem strLe_trans {a b c : String} (h1 : strLe a b = true) (h2 : strLe b c = true) :
    strLe a c = true :=
  strLeb_trans h1 h2

/-- The strict order is the reflexive order plus inequality. -/
theorem strLt_iff (a b : String) :
    strLtb a.data b.data = true ↔ strLe a b = true ∧ a ≠ b := by
  rw [strLtb_iff]
  constructor
  · rintro ⟨h1, h2⟩
    exact ⟨h1, fun h => h2 (by rw [h])⟩
  · rintro ⟨h1, h2⟩
    exact ⟨h1, fun h => h2 (congrArg String.mk h)⟩

theorem pairwise_strLe_getUniqueSymbols (rows : List Row) :
    List.Pairwise (fun a b => strLe a b = true) (getUniqueSymbols rows) :=
  pairwise_sortBy strLe strLe_total (fun h1 h2 => strLe_trans h1 h2) _

theorem pairwise_strLt_getUniqueSymbols (rows : List Row) :
    List.Pairwise (fun a b => strLtb a.data b.data = true) (getUniqueSymbols rows) := by
  have h1 := pairwise_strLe_getUniqueSymbols rows
  have h2 : List.Pairwise Ne (getUniqueSymbols rows) :=
    nodup_getUniqueSymbols rows
  exact (h1.and h2).imp (fun h => (strLt_iff _ _).mpr ⟨h.1, h.2⟩)

/-! ## Inversion lemmas for `processFiles` -/

theorem processFiles_error_realized {r u : List Row}
    (h : extractVintages r = []) :
    processFiles r u = .error (.missingVintageColumn .realized) := by
  unfold processFiles
  rw [if_pos (by simp [h])]

theorem processFiles_error_unrealized {r u : List Row}
    (h1 : extractVintages r ≠ []) (h2 : extractVintages u = []) :
    processFiles r u = .error (.missingVintageColumn .unrealized) := by
  unfold processFiles
  rw [if_neg (by simpa using h1), if_pos (by simp [h2])]

theorem processFiles_ok_eq {r u : List Row}
    (h1 : extractVintages r ≠ []) (h2 : extractVintages u ≠ []) :
    processFiles r u = .ok (sortBy vintageLe
      ((combineVintages (extractVintages r) (extractVintages u)).map
        (mkPartition r u))) := by
  unfold processFiles
  rw [if_neg (by simpa using h1), if_neg (by simpa using h2)]

theorem processFiles_ok {r u : List Row} {vds : List VintageData}
    (h : processFiles r u = .ok vds) :
    extractVintages r ≠ [] ∧ extractVintages u ≠ [] ∧
      vds = sortBy vintageLe
        ((combineVintages (extractVintages r) (extractVintages u)).map
          (mkPartition r u)) := by
  by_cases h1 : extractVintages r = []
  · rw [processFiles_error_realized h1] at h
    cases h
  · by_cases h2 : extractVintages u = []
    · rw [processFiles_error_unrealized h1 h2] at h
      cases h
    · rw [processFiles_ok_eq h1 h2] at h
      exact ⟨h1, h2, (Except.ok.inj h).symm⟩

theorem processFiles_mem {r u : List Row} {vds : List VintageData}
    (h : processFiles r u = .ok vds) (p : VintageData) :
    p ∈ vds ↔
      p.vintageName ∈ combineVintages (extractVintages r) (extractVintages u) ∧
        p = mkPartition r u p.vintageName := by
  obtain ⟨-, -, hvds⟩ := processFiles_ok h
  have hperm : List.Perm vds
      ((combineVintages (extractVintages r) (extractVintages u)).map
        (mkPartition r u)) := by
    rw [hvds]
    exact perm_sortBy _ _
  rw [hperm.mem_iff, List.mem_map]
  constructor
  · rintro ⟨v, hv, rfl⟩
    exact ⟨hv, rfl⟩
  · rintro ⟨hv, hp⟩
    exact ⟨p.vintageName, hv, hp.symm⟩

theorem processFiles_names_nodup {r u : List Row} {vds : List VintageData}
    (h : processFiles r u = .ok vds) :
    (vds.map VintageData.vintageName).Nodup := by
  obtain ⟨-, -, hvds⟩ := processFiles_ok h
  have hperm : List.Perm vds
      ((combineVintages (extractVintages r) (extractVintages u)).map
        (mkPartition r u)) := by
    rw [hvds]
    exact perm_sortBy _ _
  rw [(hperm.map VintageData.vintageName).nodup_iff, List.map_map]
  have hid : (VintageData.vintageName ∘ mkPartition r u) = fun v => v :=
    funext fun v => rfl
  rw [hid, List.map_id']
  exact nodup_combineVintages _ _

theorem processFiles_sorted {r u : List Row} {vds : List VintageData}
    (h : processFiles r u = .ok vds) :
    List.Pairwise (fun a b => vintageLe a b = true) vds := by
  obtain ⟨-, -, hvds⟩ := processFiles_ok h
  rw [hvds]
  exact pairwise_sortBy vintageLe
    (fun a b => localeLeb_total a.vintageName.data b.vintageName.data)
    (fun h1 h2 => localeLeb_trans h1 h2) _

/-! ## Characterization of the Initial Purchase sheet -/

/-- The fixed key set of the Initial Purchase data rows (also the fixed
3-column header contract of the spec). -/
def ipKeys : List String := ["Symbol", "First Purchase Date", "Initial Amount"]

/-- The header row of a generated Initial Purchase sheet. -/
def ipHeaderCells : List SCell :=
  [SCell.val (.str "Symbol"), SCell.val (.str "First Purchase Date"),
   SCell.val (.str "Initial Amount")]

/-- The cell row `json_to_sheet` produces for the symbol at index `is.1`
before the formula overwrites. -/
def ipOrigRow (is : Nat × String) : List SCell :=
  [SCell.val (.str is.2),
   SCell.val (.str ("=" ++ firstPurchaseDateFormula is.2)),
   SCell.val (.str ("=" ++ initialAmountFormula is.2 (is.1 + 2)))]

/-- The final cell row for the symbol at index `is.1`: the symbol value and
the two formula cells written by the overwrite loop. -/
def ipFinalRow (is : Nat × String) : List SCell :=
  [SCell.val (.str is.2),
   SCell.fml (firstPurchaseDateFormula is.2),
   SCell.fml (initialAmountFormula is.2 (is.1 + 2))]

theorem sheetHeaders_ipData_aux (l : List (Nat × String)) :
    (l.map ipDataRow).foldl
      (fun acc row => row.foldl (fun acc2 kv => setAdd acc2 kv.1) acc) ipKeys
      = ipKeys := by
  induction l with
  | nil => rfl
  | cons x t ih => exact ih

theorem sheetHeaders_ipData (x : Nat × String) (l : List (Nat × String)) :
    sheetHeaders (ipDataRow x :: l.map ipDataRow) = ipKeys :=
  sheetHeaders_ipData_aux l

theorem jsonToSheet_cons (row : Row) (rest : List Row) :
    jsonToSheet (row :: rest) =
      ((sheetHeaders (row :: rest)).map (fun h => SCell.val (.str h))) ::
        (row :: rest).map (fun r =>
          (sheetHeaders (row :: rest)).map (fun k =>
            match r.get? k with
            | some c => SCell.val c
            | none => SCell.blank)) := rfl

theorem ipCells_of_ipDataRow (is : Nat × String) :
    ipKeys.map (fun k =>
      match (ipDataRow is).get? k with
      | some c => SCell.val c
      | none => SCell.blank) = ipOrigRow is := rfl

theorem jsonToSheet_ipData (x : Nat × String) (l : List (Nat × String)) :
    jsonToSheet (ipDataRow x :: l.map ipDataRow) =
      ipHeaderCells :: ipOrigRow x :: l.map ipOrigRow := by
  rw [jsonToSheet_cons, sheetHeaders_ipData]
  refine congrArg₂ _ rfl ?_
  rw [List.map_cons, ipCells_of_ipDataRow, List.map_map]
  refine congrArg₂ _ rfl ?_
  refine congrArg₂ _ ?_ rfl
  funext is
  exact ipCells_of_ipDataRow is

theorem updateNth_append0 {α : Type} (pre : List α) (x : α) (rest : List α)
    (f : α → α) :
    updateNth (pre ++ x :: rest) pre.length f = pre ++ f x :: rest := by
  induction pre with
  | nil => rfl
  | cons a t ih => simp [updateNth, ih]

theorem foldl_ipStep (t : List String) : ∀ (k : Nat) (acc : Grid),
    acc.length = k + 1 →
    (List.enumFrom k t).foldl ipStep (acc ++ (List.enumFrom k t).map ipOrigRow) =
      acc ++ (List.enumFrom k t).map ipFinalRow := by
  induction t with
  | nil =>
    intro k acc _
    simp
  | cons s t ih =>
    intro k acc hacc
    have henum : List.enumFrom k (s :: t) = (k, s) :: List.enumFrom (k + 1) t := rfl
    rw [henum, List.map_cons, List.map_cons, List.foldl_cons]
    have hstep :
        ipStep (acc ++ ipOrigRow (k, s) :: (List.enumFrom (k + 1) t).map ipOrigRow)
          (k, s)
          = acc ++ ipFinalRow (k, s) :: (List.enumFrom (k + 1) t).map ipOrigRow := by
      unfold ipStep setCell
      rw [← hacc, updateNth_append0, updateNth_append0]
      rfl
    rw [hstep]
    have hre :
        acc ++ ipFinalRow (k, s) :: (List.enumFrom (k + 1) t).map ipOrigRow
          = (acc ++ [ipFinalRow (k, s)]) ++ (List.enumFrom (k + 1) t).map ipOrigRow := by
      simp
    rw [hre, ih (k + 1) (acc ++ [ipFinalRow (k, s)]) (by simp [hacc])]
    simp

/-- Characterization of `createInitialPurchaseSheet` with at least one unique
symbol: the fixed header row followed by one final cell row per symbol. -/
theorem createInitialPurchaseSheet_eq {rows : List Row}
    (h : getUniqueSymbols rows ≠ []) :
    createInitialPurchaseSheet rows =
      ipHeaderCells :: (getUniqueSymbols rows).enum.map ipFinalRow := by
  cases hs : getUniqueSymbols rows with
  | nil => exact absurd hs h
  | cons s t =>
    simp only [createInitialPurchaseSheet, hs]
    have henum : (s :: t).enum = (0, s) :: List.enumFrom 1 t := rfl
    rw [henum, List.map_cons, jsonToSheet_ipData]
    have hgrid :
        ipHeaderCells :: ipOrigRow (0, s) :: (List.enumFrom 1 t).map ipOrigRow
          = [ipHeaderCells] ++ ((0, s) :: List.enumFrom 1 t).map ipOrigRow := by
      simp
    rw [hgrid]
    have h0 : ((0, s) : Nat × String) :: List.enumFrom 1 t
        = List.enumFrom 0 (s :: t) := rfl
    rw [h0, foldl_ipStep (s :: t) 0 [ipHeaderCells] rfl]
    simp

/-- With no unique symbols the sheet is completely empty: `json_to_sheet`
of an empty array yields a sheet without even a header row, and the
overwrite loop does not run. -/
theorem createInitialPurchaseSheet_nil {rows : List Row}
    (h : getUniqueSymbols rows = []) :
    createInitialPurchaseSheet rows = [] := by
  unfold createInitialPurchaseSheet
  rw [h]
  rfl

/-! ## Spec-side formula description (refinement target for C4) -/

/-- Symbol column of the generated Realized sheet, as named by the spec's
formula contract. -/
def realizedSymbolColumn : String := "Realized!A:A"

/-- Date column of the generated Realized sheet. -/
def realizedDateColumn : String := "Realized!B:B"

/-- Action column of the generated Realized sheet. -/
def realizedActionColumn : String := "Realized!C:C"

/-- Amount column of the generated Realized sheet. -/
def realizedAmountColumn : String := "Realized!F:F"

/-- A spreadsheet cell reference: column letter followed by the 1-based row. -/
def cellRef (column : String) (row1 : Nat) : String := column ++ toString row1

/-- Stated from the spec's description of the initial-amount formula: sum of
the Realized sheet's amount column where the symbol column equals the
symbol, the date column equals the same output row's first-purchase-date
cell (the cell reference `B{row}`, not a literal date), and the action
column equals `"BUY"`; wrapped in `IFERROR` defaulting to `0`. -/
def specInitialAmountFormula (symbol : String) (dateRow : Nat) : String :=
  "IFERROR(SUMIFS(" ++ realizedAmountColumn ++ "," ++ realizedSymbolColumn ++ ",\"" ++
    symbol ++ "\"," ++ realizedDateColumn ++ "," ++ cellRef "B" dateRow ++ "," ++
    realizedActionColumn ++ ",\"BUY\"),0)"

/-- The formula string the code builds coincides with the spec's description. -/
theorem initialAmountFormula_eq_spec (s : String) (n : Nat) :
    initialAmountFormula s n = specInitialAmountFormula s n := by
  have h : (initialAmountFormula s n).data = (specInitialAmountFormula s n).data := by
    simp only [initialAmountFormula, specInitialAmountFormula, realizedAmountColumn,
      realizedSymbolColumn, realizedDateColumn, realizedActionColumn, cellRef,
      String.data_append, List.append_assoc]
    rfl
  exact congrArg String.mk h

/-! ## Claim C4 — the initial-amount formula -/

/-- Claim C4: for every realized row set and every symbol placed at 1-based
output data row `i + 2` (with `i` the 0-based index into the sorted symbol
list), the initial-amount formula emitted sums the Realized sheet's amount
column where the symbol column equals that symbol, the action column equals
`"BUY"`, and the date column equals the same output row's
first-purchase-date cell — the cell reference `B{i + 2}`, not a literal
date value. -/
theorem initial_amount_formula_correct (rows : List Row) (i : Nat)
    (h : i < (getUniqueSymbols rows).length) :
    getCell (createInitialPurchaseSheet rows) (i + 1) 0
        = some (SCell.val (.str ((getUniqueSymbols rows).get ⟨i, h⟩))) ∧
      getCell (createInitialPurchaseSheet rows) (i + 1) 2
        = some (SCell.fml
            (specInitialAmountFormula ((getUniqueSymbols rows).get ⟨i, h⟩) (i + 2))) := by
  have hne : getUniqueSymbols rows ≠ [] := by
    intro hnil
    rw [hnil] at h
    exact absurd h (by simp)
  rw [createInitialPurchaseSheet_eq hne]
  unfold getCell
  rw [List.get?_cons_succ, List.get?_map, List.enum_get?, List.get?_eq_get h]
  simp [ipFinalRow, initialAmountFormula_eq_spec]

/-- Witness for C4 at a concrete one-symbol realized row set. -/
theorem initial_amount_formula_correct_witness :
    getCell (createInitialPurchaseSheet [[("Symbol", CellValue.str "AAPL")]]) 1 0
        = some (SCell.val (.str "AAPL")) ∧
      getCell (createInitialPurchaseSheet [[("Symbol", CellValue.str "AAPL")]]) 1 2
        = some (SCell.fml (specInitialAmountFormula "AAPL" 2)) :=
  initial_amount_formula_correct [[("Symbol", CellValue.str "AAPL")]] 0 (by decide)

/-! ## Claim C5 — shape of the Initial Purchase sheet -/

/-- Counterexample for claim C5: a realized row set with zero symbols does
not produce a header-only sheet — `json_to_sheet` of the empty data array
produces a sheet with no cells at all, so the result is the empty grid, not
the one-row grid holding the fixed header. -/
theorem initial_purchase_sheet_counterexample :
    createInitialPurchaseSheet ([] : List Row) = ([] : Grid) ∧
      createInitialPurchaseSheet ([] : List Row) ≠ [ipHeaderCells] := by
  exact ⟨rfl, by decide⟩

/-- Claim C5 (amended): the Initial Purchase sheet has the fixed 3-column
header `Symbol`, `First Purchase Date`, `Initial Amount` and one row per
aggregate entry whose columns 2 and 3 hold formula cells — whenever at
least one symbol exists; with zero symbols the sheet is completely empty
(neither header nor data rows), not header-only. -/
theorem initial_purchase_sheet_shape (rows : List Row) :
    (getUniqueSymbols rows = [] → createInitialPurchaseSheet rows = []) ∧
      (getUniqueSymbols rows ≠ [] →
        createInitialPurchaseSheet rows
          = ipHeaderCells :: (getUniqueSymbols rows).enum.map ipFinalRow) :=
  ⟨fun h => createInitialPurchaseSheet_nil h, fun h => createInitialPurchaseSheet_eq h⟩

/-- Witness for C5 (amended) discharging both inner hypotheses at concrete
row sets. -/
theorem initial_purchase_sheet_shape_witness :
    createInitialPurchaseSheet ([] : List Row) = [] ∧
      createInitialPurchaseSheet [[("Symbol", CellValue.str "AAPL")]]
        = ipHeaderCells ::
            (getUniqueSymbols [[("Symbol", CellValue.str "AAPL")]]).enum.map ipFinalRow :=
  ⟨(initial_purchase_sheet_shape []).1 rfl,
    (initial_purchase_sheet_shape [[("Symbol", CellValue.str "AAPL")]]).2 (by decide)⟩

/-! ## Claim C1 — partition completeness -/

/-- Claim C1: for every pair of input tables accepted by `processFiles`,
every row whose vintage value (the value of the `Vintage`/`vintage` lookup,
the spec's VintageKey) trims to a non-empty string appears in exactly one
output partition's matching row set, matched by exact post-trim string
equality; a row whose lookup yields no truthy value (key absent, or the
falsy `""`/`0`) appears in no partition's row set.  (A truthy value that
trims to the empty string falls outside both of the claim's classes; it
lands in the partition named by the empty string — see the C3
counterexample.) -/
theorem partition_completeness (r u : List Row) (vds : List VintageData)
    (h : processFiles r u = .ok vds) :
    (∀ row v, row ∈ r → rowVintage row = some v → v ≠ "" →
        ∃! p, p ∈ vds ∧ row ∈ p.realizedRows) ∧
      (∀ row v, row ∈ u → rowVintage row = some v → v ≠ "" →
        ∃! p, p ∈ vds ∧ row ∈ p.unrealizedRows) ∧
      (∀ row, rowVintage row = none →
        ∀ p ∈ vds, row ∉ p.realizedRows ∧ row ∉ p.unrealizedRows) := by
  refine ⟨?_, ?_, ?_⟩
  · intro row v hrow hrv _
    refine ⟨mkPartition r u v, ⟨?_, ?_⟩, ?_⟩
    · exact (processFiles_mem h _).mpr
        ⟨mem_combineVintages.mpr (Or.inl (mem_extractVintages.mpr ⟨row, hrow, hrv⟩)),
          rfl⟩
    · exact mem_filterRowsByVintage.mpr ⟨hrow, hrv⟩
    · rintro q ⟨hq, hrq⟩
      obtain ⟨-, hqeq⟩ := (processFiles_mem h q).mp hq
      have hmem : row ∈ filterRowsByVintage r q.vintageName := by
        rw [hqeq] at hrq
        exact hrq
      have hqv : rowVintage row = some q.vintageName :=
        (mem_filterRowsByVintage.mp hmem).2
      have hname : q.vintageName = v := by
        rw [hqv] at hrv
        exact Option.some_inj.mp hrv
      rw [hname] at hqeq
      exact hqeq
  · intro row v hrow hrv _
    refine ⟨mkPartition r u v, ⟨?_, ?_⟩, ?_⟩
    · exact (processFiles_mem h _).mpr
        ⟨mem_combineVintages.mpr (Or.inr (mem_extractVintages.mpr ⟨row, hrow, hrv⟩)),
          rfl⟩
    · exact mem_filterRowsByVintage.mpr ⟨hrow, hrv⟩
    · rintro q ⟨hq, hrq⟩
      obtain ⟨-, hqeq⟩ := (processFiles_mem h q).mp hq
      have hmem : row ∈ filterRowsByVintage u q.vintageName := by
        rw [hqeq] at hrq
        exact hrq
      have hqv : rowVintage row = some q.vintageName :=
        (mem_filterRowsByVintage.mp hmem).2
      have hname : q.vintageName = v := by
        rw [hqv] at hrv
        exact Option.some_inj.mp hrv
      rw [hname] at hqeq
      exact hqeq
  · intro row hnone p hp
    obtain ⟨-, hpeq⟩ := (processFiles_mem h p).mp hp
    constructor
    · intro hmem
      rw [hpeq] at hmem
      have hv := (mem_filterRowsByVintage.mp hmem).2
      rw [hnone] at hv
      cases hv
    · intro hmem
      rw [hpeq] at hmem
      have hv := (mem_filterRowsByVintage.mp hmem).2
      rw [hnone] at hv
      cases hv

/-- Input tables for the C1 witness: a padded vintage cell and a falsy
(empty-string) vintage cell. -/
def c1Realized : List Row :=
  [[("Vintage", CellValue.str " CQ1 ")], [("Vintage", CellValue.str "")]]

/-- Unrealized input for the C1 witness. -/
def c1Unrealized : List Row := [[("Vintage", CellValue.str "CQ1")]]

/-- The partitions `processFiles` produces for the C1 witness inputs. -/
def c1Output : List VintageData :=
  [⟨"CQ1", [[("Vintage", CellValue.str " CQ1 ")]], [[("Vintage", CellValue.str "CQ1")]]⟩]

/-- Witness for C1: the padded row lands in exactly one partition (grouped
under the trimmed name), the falsy row in none. -/
theorem partition_completeness_witness :
    (∃! p, p ∈ c1Output ∧ [("Vintage", CellValue.str " CQ1 ")] ∈ p.realizedRows) ∧
      ∀ p ∈ c1Output,
        [("Vintage", CellValue.str "")] ∉ p.realizedRows ∧
          [("Vintage", CellValue.str "")] ∉ p.unrealizedRows :=
  ⟨(partition_completeness c1Realized c1Unrealized c1Output rfl).1
      [("Vintage", CellValue.str " CQ1 ")] "CQ1" (by decide) rfl (by decide),
    (partition_completeness c1Realized c1Unrealized c1Output rfl).2.2
      [("Vintage", CellValue.str "")] rfl⟩

/-! ## Claim C2 — partition ordering -/

/-- Realized input for the C2 counterexample, carrying the mixed-case
vintages `"a"` and `"B"`. -/
def c2CaseRealized : List Row :=
  [[("Vintage", CellValue.str "a")], [("Vintage", CellValue.str "B")]]

/-- Unrealized input for the C2 counterexample. -/
def c2CaseUnrealized : List Row := [[("Vintage", CellValue.str "a")]]

/-- The partitions `processFiles` produces for the C2 counterexample
inputs: the collation places `"a"` before `"B"`. -/
def c2CaseOutput : List VintageData :=
  [⟨"a", [[("Vintage", CellValue.str "a")]], [[("Vintage", CellValue.str "a")]]⟩,
   ⟨"B", [[("Vintage", CellValue.str "B")]], []⟩]

/-- Counterexample for claim C2: on accepted inputs with the mixed-case
vintages `"a"` and `"B"`, `localeCompare`'s default-locale collation orders
`"a"` before `"B"` (primary weights `a < b`), while ordinary lexicographic
string comparison orders `"B"` (code unit 66) before `"a"` (code unit 97) —
so the emitted partition list is not ascending under ordinary lexicographic
comparison, not even non-strictly. -/
theorem lexicographic_order_counterexample :
    processFiles c2CaseRealized c2CaseUnrealized = .ok c2CaseOutput ∧
      ¬ List.Pairwise
          (fun p q => strLeb p.vintageName.data q.vintageName.data = true)
          c2CaseOutput :=
  ⟨rfl, by decide⟩

/-- Claim C2 (amended): for every pair of input tables accepted by
`processFiles`, the output partitions are sorted strictly ascending by
`vintageName` under the default-locale collation of `localeCompare`
(case-insensitive primary comparison, lowercase-before-uppercase
tiebreak — see `collationKeyLt`), which is not numeric or domain-aware
and coincides with ordinary lexicographic comparison on case-uniform
alphanumeric labels; in particular a vintage named `"CQ10"` still precedes
one named `"CQ2"` (instantiated by the witness). -/
theorem partitions_sorted_collation (r u : List Row) (vds : List VintageData)
    (h : processFiles r u = .ok vds) :
    List.Pairwise
      (fun p q => collationKeyLt p.vintageName.data q.vintageName.data = true) vds := by
  have h1 := processFiles_sorted h
  have h2 : List.Pairwise
      (fun p q : VintageData => p.vintageName ≠ q.vintageName) vds := by
    have hn : List.Pairwise (fun a b : String => a ≠ b)
        (vds.map VintageData.vintageName) := processFiles_names_nodup h
    exact List.pairwise_map.mp hn
  exact (h1.and h2).imp (fun hpq => (collationLt_iff _ _).mpr ⟨hpq.1, hpq.2⟩)

/-- Realized input for the C2 witness, carrying vintages CQ10 and CQ2. -/
def c2Realized : List Row :=
  [[("Vintage", CellValue.str "CQ10")], [("Vintage", CellValue.str "CQ2")]]

/-- Unrealized input for the C2 witness. -/
def c2Unrealized : List Row := [[("Vintage", CellValue.str "CQ10")]]

/-- The partitions `processFiles` produces for the C2 witness inputs:
`"CQ10"` sorts before `"CQ2"` (digit weights `1 < 2`; the collation is not
numeric-aware). -/
def c2Output : List VintageData :=
  [⟨"CQ10", [[("Vintage", CellValue.str "CQ10")]], [[("Vintage", CellValue.str "CQ10")]]⟩,
   ⟨"CQ2", [[("Vintage", CellValue.str "CQ2")]], []⟩]

/-- Witness for C2 (amended): on concrete inputs with vintages CQ10 and CQ2
the output places CQ10 first and is strictly ascending under the
collation. -/
theorem partitions_sorted_collation_witness :
    processFiles c2Realized c2Unrealized = .ok c2Output ∧
      List.Pairwise
        (fun p q => collationKeyLt p.vintageName.data q.vintageName.data = true)
        c2Output :=
  ⟨rfl, partitions_sorted_collation c2Realized c2Unrealized c2Output rfl⟩

/-! ## Claim C3 — the missing-vintage validation gate -/

/-- Stated from the claim's words: the distinct trimmed vintage values of a
table that are non-empty after trimming. -/
def specNonEmptyTrimmedVintages (rows : List Row) : List String :=
  (extractVintages rows).filter (fun s => s != "")

/-- Realized input for the C3 counterexample: its only vintage cell is
whitespace, so it has zero distinct non-empty trimmed vintage values. -/
def c3Realized : List Row := [[("Vintage", CellValue.str "   ")]]

/-- Unrealized input for the C3 counterexample. -/
def c3Unrealized : List Row := [[("Vintage", CellValue.str "A")]]

/-- Counterexample for claim C3: the realized table yields zero distinct
non-empty trimmed vintage values, yet `processFiles` does not fail — the
whitespace-only cell is truthy, passes the gate as the empty-string
vintage, and two partitions are produced. -/
theorem missing_vintage_gate_counterexample :
    specNonEmptyTrimmedVintages c3Realized = [] ∧
      processFiles c3Realized c3Unrealized
        = .ok [⟨"", [[("Vintage", CellValue.str "   ")]], []⟩,
               ⟨"A", [], [[("Vintage", CellValue.str "A")]]⟩] :=
  ⟨rfl, rfl⟩

/-- Claim C3 (amended): `processFiles` fails with the missing-vintage error
naming an input exactly when that input's extracted vintage set is empty,
i.e. when no row has a truthy vintage cell; a key absent everywhere and a
key falsy everywhere are rejected alike, but a whitespace-only vintage cell
counts as a value (the empty-string vintage) and passes the gate.  The
realized input is checked first, and on failure no partitions are
produced. -/
theorem missing_vintage_gate_amended (r u : List Row) :
    (extractVintages r = [] ↔ ∀ row ∈ r, rowVintage row = none) ∧
      (extractVintages u = [] ↔ ∀ row ∈ u, rowVintage row = none) ∧
      (extractVintages r = [] →
        processFiles r u = .error (.missingVintageColumn .realized)) ∧
      (extractVintages r ≠ [] → extractVintages u = [] →
        processFiles r u = .error (.missingVintageColumn .unrealized)) ∧
      (extractVintages r ≠ [] → extractVintages u ≠ [] →
        ∃ vds, processFiles r u = .ok vds) :=
  ⟨extractVintages_eq_nil_iff, extractVintages_eq_nil_iff,
    fun h1 => processFiles_error_realized h1,
    fun h1 h2 => processFiles_error_unrealized h1 h2,
    fun h1 h2 => ⟨_, processFiles_ok_eq h1 h2⟩⟩

/-- Witness for C3 (amended): a table with no vintage key at all is
rejected naming the realized input. -/
theorem missing_vintage_gate_amended_witness :
    processFiles [[("Other", CellValue.str "x")]] c3Unrealized
      = .error (.missingVintageColumn .realized) :=
  (missing_vintage_gate_amended [[("Other", CellValue.str "x")]] c3Unrealized).2.2.1 rfl

/-! ## Claim C6 — unique symbol collection -/

/-- Stated from the claim's words: the distinct, trimmed, non-empty values
of the `"Symbol"` field across the rows, sorted ascending. -/
def specUniqueSymbols (rows : List Row) : List String :=
  sortBy strLe
    (rows.foldl
      (fun acc row =>
        match row.get? "Symbol" with
        | some c => if jsTrim c.jsStr != "" then setAdd acc (jsTrim c.jsStr) else acc
        | none => acc)
      [])

/-- Realized rows for the C6 counterexample: a whitespace-only symbol cell. -/
def c6Rows : List Row := [[("Symbol", CellValue.str "   ")]]

/-- Counterexample for claim C6: the whitespace-only symbol cell is truthy,
so the code collects its trimmed value — the empty string — although the
claim's "distinct, trimmed, non-empty values" contain nothing. -/
theorem unique_symbols_counterexample :
    getUniqueSymbols c6Rows = [""] ∧ specUniqueSymbols c6Rows = [] :=
  ⟨rfl, rfl⟩

/-- Claim C6 (amended): `getUniqueSymbols` collects exactly the distinct
trimmed values of the `"Symbol"` field across rows whose symbol cell is
truthy — so a whitespace-only cell contributes the empty string, and a
falsy (`""`/`0`) or absent cell contributes nothing — sorted strictly
ascending lexicographically; rows carrying symbols `["MSFT", "AAPL"]` in
insertion order yield `["AAPL", "MSFT"]`. -/
theorem unique_symbols_amended (rows : List Row) :
    List.Pairwise (fun a b => strLtb a.data b.data = true) (getUniqueSymbols rows) ∧
      (∀ s, s ∈ getUniqueSymbols rows ↔ ∃ row ∈ rows, symbolValue row = some s) ∧
      getUniqueSymbols
          [[("Symbol", CellValue.str "MSFT")], [("Symbol", CellValue.str "AAPL")]]
        = ["AAPL", "MSFT"] :=
  ⟨pairwise_strLt_getUniqueSymbols rows, fun _ => mem_getUniqueSymbols, rfl⟩

/-! ## Claim C7 — union coverage -/

/-- Claim C7: for every pair of input tables accepted by `processFiles`,
the emitted vintage set is the union of the vintage sets of both tables,
and a vintage present in only one input still produces a partition whose
row set for the other input is empty. -/
theorem vintage_union_coverage (r u : List Row) (vds : List VintageData)
    (h : processFiles r u = .ok vds) :
    (∀ v, (∃ p ∈ vds, p.vintageName = v) ↔
        (v ∈ extractVintages r ∨ v ∈ extractVintages u)) ∧
      ∀ p ∈ vds,
        (p.vintageName ∉ extractVintages r → p.realizedRows = []) ∧
          (p.vintageName ∉ extractVintages u → p.unrealizedRows = []) := by
  constructor
  · intro v
    constructor
    · rintro ⟨p, hp, rfl⟩
      obtain ⟨hv, -⟩ := (processFiles_mem h p).mp hp
      exact mem_combineVintages.mp hv
    · intro hv
      exact ⟨mkPartition r u v,
        (processFiles_mem h _).mpr ⟨mem_combineVintages.mpr hv, rfl⟩, rfl⟩
  · intro p hp
    obtain ⟨-, hpeq⟩ := (processFiles_mem h p).mp hp
    constructor
    · intro hnr
      rw [hpeq]
      exact filterRowsByVintage_eq_nil hnr
    · intro hnu
      rw [hpeq]
      exact filterRowsByVintage_eq_nil hnu

/-- Realized input for the C7 witness (vintage CQ1 only). -/
def c7Realized : List Row := [[("Vintage", CellValue.str "CQ1")]]

/-- Unrealized input for the C7 witness (vintage CQ2 only). -/
def c7Unrealized : List Row := [[("Vintage", CellValue.str "CQ2")]]

/-- The partitions `processFiles` produces for the C7 witness inputs. -/
def c7Output : List VintageData :=
  [⟨"CQ1", [[("Vintage", CellValue.str "CQ1")]], []⟩,
   ⟨"CQ2", [], [[("Vintage", CellValue.str "CQ2")]]⟩]

/-- Witness for C7: vintage CQ2 appears only in the unrealized input, yet a
partition for it exists, and its realized row set is empty. -/
theorem vintage_union_coverage_witness :
    (∃ p ∈ c7Output, p.vintageName = "CQ2") ∧
      ∀ p ∈ c7Output, p.vintageName = "CQ2" → p.realizedRows = [] :=
  ⟨((vintage_union_coverage c7Realized c7Unrealized c7Output rfl).1 "CQ2").mpr
      (Or.inr (by decide)),
    fun p hp hname =>
      ((vintage_union_coverage c7Realized c7Unrealized c7Output rfl).2 p hp).1
        (by rw [hname]; decide)⟩

/-! ## Claim C8 — workbook synthesis -/

/-- Claim C8: for every partition — including one with an empty realized or
unrealized row set — `generateVintageExcel` produces a workbook with
exactly three sheets in the fixed order Realized, Unrealized, Initial
Purchase; an empty row set yields a sheet with no rows at all (the
embedding is a total function, so no error is raised). -/
theorem workbook_three_sheets (vd : VintageData) :
    (generateVintageExcel vd).map Prod.fst
        = ["Realized", "Unrealized", "Initial Purchase"] ∧
      (vd.realizedRows = [] →
        ((generateVintageExcel vd).map Prod.snd).get? 0 = some ([] : Grid)) ∧
      (vd.unrealizedRows = [] →
        ((generateVintageExcel vd).map Prod.snd).get? 1 = some ([] : Grid)) := by
  refine ⟨rfl, ?_, ?_⟩
  · intro h
    simp [generateVintageExcel, h, jsonToSheet]
  · intro h
    simp [generateVintageExcel, h, jsonToSheet]

/-- Witness for C8 at a partition with both row sets empty. -/
theorem workbook_three_sheets_witness :
    (generateVintageExcel ⟨"V", [], []⟩).map Prod.fst
        = ["Realized", "Unrealized", "Initial Purchase"] ∧
      ((generateVintageExcel ⟨"V", [], []⟩).map Prod.snd).get? 0 = some ([] : Grid) ∧
      ((generateVintageExcel ⟨"V", [], []⟩).map Prod.snd).get? 1 = some ([] : Grid) :=
  ⟨(workbook_three_sheets ⟨"V", [], []⟩).1,
    (workbook_three_sheets ⟨"V", [], []⟩).2.1 rfl,
    (workbook_three_sheets ⟨"V", [], []⟩).2.2 rfl⟩

/-! ## Claim C9 — per-vintage result metadata -/

/-- Claim C9: for every processed partition, the returned `VintageResult`
has `filename` equal to `"{vintageName}_Portfolio.xlsx"` built from that
partition's name, row counts equal to the lengths of the partition's row
sets, and `fileSize` equal to the byte length of that partition's
serialized workbook buffer. -/
theorem vintage_result_metadata (writeWorkbook : Workbook → List UInt8)
    (r u : List Row) (vds : List VintageData) (results : List VintageResult)
    (h : processAndGenerateFiles writeWorkbook r u = .ok (vds, results)) :
    results = vds.map (fun vd =>
      { vintageName := vd.vintageName
        filename := vd.vintageName ++ "_Portfolio.xlsx"
        realizedRowCount := vd.realizedRows.length
        unrealizedRowCount := vd.unrealizedRows.length
        fileSize := (writeWorkbook (generateVintageExcel vd)).length : VintageResult }) := by
  unfold processAndGenerateFiles at h
  cases hpf : processFiles r u with
  | error e =>
    rw [hpf] at h
    cases h
  | ok arr =>
    rw [hpf] at h
    simp only [Except.ok.injEq, Prod.mk.injEq] at h
    obtain ⟨ha, hb⟩ := h
    rw [← ha]
    exact hb.symm

/-- Serializer stub for the C9 witness. -/
def c9Write : Workbook → List UInt8 := fun _ => []

/-- Realized input for the C9 witness. -/
def c9Realized : List Row := [[("Vintage", CellValue.str "CQ1")]]

/-- Unrealized input for the C9 witness. -/
def c9Unrealized : List Row := [[("Vintage", CellValue.str "CQ1")]]

/-- Witness for C9 at concrete inputs with one vintage. -/
theorem vintage_result_metadata_witness :
    [({ vintageName := "CQ1", filename := "CQ1_Portfolio.xlsx",
        realizedRowCount := 1, unrealizedRowCount := 1, fileSize := 0 } : VintageResult)]
      = [(⟨"CQ1", [[("Vintage", CellValue.str "CQ1")]],
            [[("Vintage", CellValue.str "CQ1")]]⟩ : VintageData)].map (fun vd =>
          { vintageName := vd.vintageName
            filename := vd.vintageName ++ "_Portfolio.xlsx"
            realizedRowCount := vd.realizedRows.length
            unrealizedRowCount := vd.unrealizedRows.length
            fileSize := (c9Write (generateVintageExcel vd)).length : VintageResult }) :=
  vintage_result_metadata c9Write c9Realized c9Unrealized
    [⟨"CQ1", [[("Vintage", CellValue.str "CQ1")]], [[("Vintage", CellValue.str "CQ1")]]⟩]
    [{ vintageName := "CQ1", filename := "CQ1_Portfolio.xlsx",
       realizedRowCount := 1, unrealizedRowCount := 1, fileSize := 0 }] rfl

/-! ## Claim C10 — truthiness of the vintage lookup -/

/-- Row for the C10 witness: a `Vintage` cell holding the number `0`. -/
def c10Row : Row := [("Vintage", CellValue.num 0)]

/-- Claim C10: the vintage lookup reads `"Vintage"` and falls back to
`"vintage"` only when `"Vintage"` is falsy under JS truthiness, so a row
whose `Vintage` cell holds the number `0` or the empty string is treated as
if the field were absent — falling through to `"vintage"`, and, when that
is also falsy, excluded from vintage discovery and from every partition,
even though the cell is populated. -/
theorem vintage_truthiness_fallback (row : Row)
    (h : row.get? "Vintage" = some (CellValue.num 0) ∨
        row.get? "Vintage" = some (CellValue.str "")) :
    vintageLookup row = row.get? "vintage" ∧
      (truthyO (row.get? "vintage") = false → rowVintage row = none) ∧
      (rowVintage row = none →
        (∀ pre post, extractVintages (pre ++ row :: post) = extractVintages (pre ++ post)) ∧
          (∀ rows v, row ∉ filterRowsByVintage rows v) ∧
          (∀ r u vds, processFiles r u = .ok vds →
            ∀ p ∈ vds, row ∉ p.realizedRows ∧ row ∉ p.unrealizedRows)) := by
  have hlk : vintageLookup row = row.get? "vintage" := by
    rcases h with h | h <;>
      simp [vintageLookup, h, truthyO, CellValue.truthy]
  refine ⟨hlk, ?_, ?_⟩
  · intro hfalsy
    unfold rowVintage
    rw [hlk]
    cases hgv : row.get? "vintage" with
    | none => rfl
    | some c =>
      rw [hgv] at hfalsy
      simp only [truthyO] at hfalsy
      simp [hfalsy]
  · intro hnone
    refine ⟨?_, ?_, ?_⟩
    · intro pre post
      unfold extractVintages
      rw [List.foldl_append, List.foldl_append, List.foldl_cons, hnone]
    · intro rows v hmem
      have := (mem_filterRowsByVintage.mp hmem).2
      rw [hnone] at this
      cases this
    · intro r2 u2 vds hpf p hp
      obtain ⟨-, hpeq⟩ := (processFiles_mem hpf p).mp hp
      constructor
      · intro hmem
        rw [hpeq] at hmem
        have := (mem_filterRowsByVintage.mp hmem).2
        rw [hnone] at this
        cases this
      · intro hmem
        rw [hpeq] at hmem
        have := (mem_filterRowsByVintage.mp hmem).2
        rw [hnone] at this
        cases this

/-- Witness for C10: the `Vintage` cell holds the number `0` and no
lowercase fallback exists, so the row is invisible to discovery and
filtering despite the populated cell. -/
theorem vintage_truthiness_fallback_witness :
    vintageLookup c10Row = c10Row.get? "vintage" ∧
      rowVintage c10Row = none ∧
      extractVintages [c10Row] = extractVintages [] ∧
      c10Row ∉ filterRowsByVintage [c10Row] "0" :=
  ⟨(vintage_truthiness_fallback c10Row (Or.inl rfl)).1,
    (vintage_truthiness_fallback c10Row (Or.inl rfl)).2.1 rfl,
    ((vintage_truthiness_fallback c10Row (Or.inl rfl)).2.2 rfl).1 [] [],
    ((vintage_truthiness_fallback c10Row (Or.inl rfl)).2.2 rfl).2.1 [c10Row] "0"⟩
